import Mathlib

/-!
Verification of the `VotingSystem` ledger core (Solidity contract) against its
specification.  The contract state and operations are shallowly embedded as
Lean functions; failures are `Except` errors, so a failing operation returns
no new state (the reverted transaction leaves storage untouched).
-/

namespace Voting

/-- An externally-issued account identity (the Solidity `address` type). -/
abbrev Address := Nat

/-- The `Candidate` struct: a name and a vote count. -/
structure Candidate where
  name : String
  voteCount : Nat
deriving DecidableEq, Repr

/-- The custom errors declared in the `IVotingSystem` interface. -/
inductive VError where
  | Unauthorized : VError
  | EmptyCandidateName : VError
  | AlreadyVoted : VError
  | InvalidCandidateIndex : Nat → VError
  | NoCandidates : VError
deriving DecidableEq, Repr

/-- Contract storage: the immutable `admin`, the `candidates` array, and the
vote bookkeeping.  The mappings `hasVoted` and `voterToCandidate` are always
written together by `vote`, so they are represented by the list of recorded
`(voter, candidateIndex)` pairs, in the order the votes were cast. -/
structure VotingSystem where
  admin : Address
  candidates : List Candidate
  votes : List (Address × Nat)
deriving DecidableEq, Repr

/-- The constructor: sets the deployer as admin, with empty storage. -/
def VotingSystem.init (sender : Address) : VotingSystem :=
  { admin := sender, candidates := [], votes := [] }

/-- The `hasVoted` mapping: true when a vote record for `a` exists. -/
def VotingSystem.hasVoted (s : VotingSystem) (a : Address) : Bool :=
  s.votes.any (fun p => p.1 == a)

/-- The `voterToCandidate` mapping, read as a finite map. -/
def VotingSystem.voterToCandidate (s : VotingSystem) (a : Address) : Option Nat :=
  (s.votes.find? (fun p => p.1 == a)).map Prod.snd

/-- `addCandidate`: the `onlyAdmin` modifier check runs first, then the
empty-name check, then `candidates.push(Candidate(name, 0))`.  The returned
number is the index carried by the `CandidateAdded` event, which the contract
computes as `candidates.length - 1` after the push, i.e. the length before. -/
def VotingSystem.addCandidate (s : VotingSystem) (sender : Address) (name : String) :
    Except VError (VotingSystem × Nat) :=
  if sender ≠ s.admin then .error .Unauthorized
  else if name.length == 0 then .error .EmptyCandidateName
  else .ok ({ s with candidates := s.candidates ++ [{ name := name, voteCount := 0 }] },
            s.candidates.length)

/-- The storage write `candidates[candidateIndex].voteCount++`. -/
def incVote : List Candidate → Nat → List Candidate
  | [], _ => []
  | c :: cs, 0 => { c with voteCount := c.voteCount + 1 } :: cs
  | c :: cs, n + 1 => c :: incVote cs n

/-- `vote`: the already-voted check, then the range check, then the three
storage writes (`hasVoted`, `voterToCandidate`, the vote count increment). -/
def VotingSystem.vote (s : VotingSystem) (sender : Address) (candidateIndex : Nat) :
    Except VError VotingSystem :=
  if s.hasVoted sender then .error .AlreadyVoted
  else if candidateIndex ≥ s.candidates.length then
    .error (.InvalidCandidateIndex candidateIndex)
  else .ok { s with
    votes := s.votes ++ [(sender, candidateIndex)],
    candidates := incVote s.candidates candidateIndex }

/-- `getCandidates`: returns the candidates array. -/
def VotingSystem.getCandidates (s : VotingSystem) : List Candidate :=
  s.candidates

/-- The `for` loop of `getWinner`: scan the remaining candidates, `i` being the
index of the head, with accumulator `(maxVotes, winnerIndex)`; the winner is
replaced only when a count is strictly greater than the running maximum. -/
def winnerScan : List Candidate → Nat → Nat × Nat → Nat × Nat
  | [], _, acc => acc
  | c :: cs, i, (maxVotes, winnerIndex) =>
    if c.voteCount > maxVotes then winnerScan cs (i + 1) (c.voteCount, i)
    else winnerScan cs (i + 1) (maxVotes, winnerIndex)

/-- `getWinner`: reverts with `NoCandidates` on an empty array, otherwise runs
the scan with `maxVotes` and `winnerIndex` both starting at 0 and returns the
name of the candidate at the final `winnerIndex`. -/
def VotingSystem.getWinner (s : VotingSystem) : Except VError String :=
  if s.candidates.length == 0 then .error .NoCandidates
  else
    let r := winnerScan s.candidates 0 (0, 0)
    .ok ((s.candidates.getD r.2 { name := "", voteCount := 0 }).name)

/-- `getCandidateCount`: the length of the candidates array. -/
def VotingSystem.getCandidateCount (s : VotingSystem) : Nat :=
  s.candidates.length

/-- `hasAddressVoted`: reads the `hasVoted` mapping. -/
def VotingSystem.hasAddressVoted (s : VotingSystem) (v : Address) : Bool :=
  s.hasVoted v

/-- The candidate at index `j`, with a default for out-of-range reads (used
only at in-range indices in the statements below). -/
def candAt (cs : List Candidate) (j : Nat) : Candidate :=
  cs.getD j { name := "", voteCount := 0 }

/-- The largest vote count in a candidate list (0 when empty). -/
def maxCount : List Candidate → Nat
  | [] => 0
  | c :: cs => max c.voteCount (maxCount cs)

/-- JavaScript `String.prototype.trim`, modelled structurally on the character
list: strip leading and trailing whitespace. -/
def jsTrim (name : String) : String :=
  String.mk ((name.data.dropWhile Char.isWhitespace).reverse.dropWhile
    Char.isWhitespace).reverse

/-- `validateAddCandidate` from `src/backend/middleware/validator.js`,
restricted to requests where `name` is present and is a string: first the
trimmed-emptiness check, then the length bound; `some msg` is the HTTP 400
rejection message, `none` lets the request through to the contract. -/
def validateAddCandidate (name : String) : Option String :=
  if (jsTrim name).length == 0 then some "Candidate name cannot be empty"
  else if name.length > 100 then some "Candidate name too long (max 100 characters)"
  else none

/-- One successful mutation of the contract state (a committed transaction). -/
inductive Step : VotingSystem → VotingSystem → Prop
  | add {s : VotingSystem} (sender : Address) (name : String) {s' : VotingSystem}
      (idx : Nat) (h : s.addCandidate sender name = .ok (s', idx)) : Step s s'
  | vote {s : VotingSystem} (sender : Address) (idx : Nat) {s' : VotingSystem}
      (h : s.vote sender idx = .ok s') : Step s s'

/-- Zero or more successful mutations. -/
inductive ReachableFrom : VotingSystem → VotingSystem → Prop
  | refl (s : VotingSystem) : ReachableFrom s s
  | tail {s t u : VotingSystem} : ReachableFrom s t → Step t u → ReachableFrom s u

/-- States reachable from a freshly deployed contract. -/
def Reachable (s : VotingSystem) : Prop :=
  ∃ a : Address, ReachableFrom (VotingSystem.init a) s

/-- A call made against the contract (mutating entry points only). -/
inductive Op where
  | add (sender : Address) (name : String) : Op
  | castVote (sender : Address) (idx : Nat) : Op

/-- Apply one call: a reverted call leaves the state unchanged. -/
def applyOp (s : VotingSystem) : Op → VotingSystem
  | .add sender name =>
    match s.addCandidate sender name with
    | .ok (s', _) => s'
    | .error _ => s
  | .castVote sender idx =>
    match s.vote sender idx with
    | .ok s' => s'
    | .error _ => s

/-- Run a sequence of calls left to right. -/
def runOps : VotingSystem → List Op → VotingSystem
  | s, [] => s
  | s, op :: ops => runOps (applyOp s op) ops

/-- Whether a call is an `addCandidate` call that succeeds in state `s`. -/
def isSuccessfulAdd (s : VotingSystem) (op : Op) : Bool :=
  match op with
  | .add sender name =>
    match s.addCandidate sender name with
    | .ok _ => true
    | .error _ => false
  | .castVote _ _ => false

/-- The number of successful `addCandidate` calls in a call sequence. -/
def succAdds : VotingSystem → List Op → Nat
  | _, [] => 0
  | s, op :: ops => (if isSuccessfulAdd s op then 1 else 0) + succAdds (applyOp s op) ops

/-- A name consisting of 101 copies of the letter a, over the validator bound. -/
def longName101 : String := String.mk (List.replicate 101 'a')

lemma length_ne_zero_of_ne_empty (name : String) (h : name ≠ "") :
    name.length ≠ 0 := by
  intro hl
  apply h
  cases name with
  | mk data =>
    cases data with
    | nil => rfl
    | cons c cs => simp [String.length] at hl

/-- C8: AddCandidate called by any identity other than the admin fails with
`Unauthorized`, for every name and every state; the error return means the
candidate sequence and the vote records are left unchanged. -/
theorem addCandidate_nonAdmin_unauthorized (s : VotingSystem) (sender : Address)
    (name : String) (h : sender ≠ s.admin) :
    s.addCandidate sender name = .error .Unauthorized := by
  simp [VotingSystem.addCandidate, h]

theorem addCandidate_nonAdmin_unauthorized_witness :
    (VotingSystem.init 0).addCandidate 1 "Alice" = .error .Unauthorized :=
  addCandidate_nonAdmin_unauthorized (VotingSystem.init 0) 1 "Alice" (by decide)

/-- C2 counterexample: a non-admin caller passing an empty name is rejected by
the `onlyAdmin` modifier with `Unauthorized`, not with the empty-name
validation error, so the empty-name error does depend on the caller. -/
theorem addCandidate_empty_nonAdmin_counterexample :
    (VotingSystem.init 0).addCandidate 1 "" = .error .Unauthorized ∧
    ¬ (VotingSystem.init 0).addCandidate 1 "" = .error .EmptyCandidateName := by
  refine ⟨rfl, fun h => ?_⟩
  rw [show (VotingSystem.init 0).addCandidate 1 "" = .error .Unauthorized from rfl] at h
  exact VError.noConfusion (Except.error.inj h)

/-- C2 amended: AddCandidate with an empty name always fails and, failing,
leaves the state unchanged, for every caller and state; the admin receives
`EmptyCandidateName`, while any other caller receives `Unauthorized` because
the authorization check runs before the name check. -/
theorem addCandidate_empty_rejected (s : VotingSystem) (caller : Address) :
    s.addCandidate caller "" =
      .error (if caller = s.admin then VError.EmptyCandidateName
              else VError.Unauthorized) := by
  unfold VotingSystem.addCandidate
  by_cases h : caller = s.admin
  · simp [h]
  · simp [h]

/-- C3: CastVote checks `AlreadyVoted` first, for any index argument including
out-of-range ones, and only then the range check, which also rejects every
index when the registry is empty; both failures return an error and so leave
the state unchanged. -/
theorem vote_precondition_order (s : VotingSystem) (v : Address) (i : Nat) :
    (s.hasVoted v = true → s.vote v i = .error .AlreadyVoted) ∧
    (s.hasVoted v = false → s.candidates.length ≤ i →
      s.vote v i = .error (.InvalidCandidateIndex i)) := by
  constructor
  · intro h
    simp [VotingSystem.vote, h]
  · intro h hlen
    simp [VotingSystem.vote, h, hlen]

theorem vote_precondition_order_witness :
    ((VotingSystem.mk 0 [{ name := "A", voteCount := 1 }] [(1, 0)]).vote 1 5 =
      .error .AlreadyVoted) ∧
    ((VotingSystem.init 0).vote 1 0 = .error (.InvalidCandidateIndex 0)) :=
  ⟨(vote_precondition_order (VotingSystem.mk 0 [{ name := "A", voteCount := 1 }]
      [(1, 0)]) 1 5).1 rfl,
   (vote_precondition_order (VotingSystem.init 0) 1 0).2 rfl (by decide)⟩

/-- C9: the read entry points are pure functions of the state: they return no
new state, `getCandidates` always succeeds and returns the candidate sequence
in order, and two calls on the same state give identical results. -/
theorem reads_pure_and_deterministic (s : VotingSystem) :
    s.getCandidates = s.candidates ∧
    s.getCandidateCount = s.candidates.length ∧
    (∀ j, j < s.getCandidates.length → candAt s.getCandidates j = candAt s.candidates j) ∧
    (∀ t : VotingSystem, t = s →
      t.getCandidates = s.getCandidates ∧ t.getWinner = s.getWinner ∧
      ∀ a : Address, t.hasAddressVoted a = s.hasAddressVoted a) := by
  refine ⟨rfl, rfl, fun j _ => rfl, fun t ht => ?_⟩
  subst ht
  exact ⟨rfl, rfl, fun a => rfl⟩

theorem reads_pure_witness :
    candAt ((VotingSystem.mk 0 [{ name := "A", voteCount := 2 }] [(1, 0)]).getCandidates) 0 =
      candAt (VotingSystem.mk 0 [{ name := "A", voteCount := 2 }] [(1, 0)]).candidates 0 ∧
    (VotingSystem.mk 0 [{ name := "A", voteCount := 2 }] [(1, 0)]).getWinner =
      (VotingSystem.mk 0 [{ name := "A", voteCount := 2 }] [(1, 0)]).getWinner :=
  ⟨(reads_pure_and_deterministic _).2.2.1 0 (by decide),
   ((reads_pure_and_deterministic (VotingSystem.mk 0 [{ name := "A", voteCount := 2 }]
      [(1, 0)])).2.2.2 _ rfl).2.1⟩

/-- C10: the contract itself accepts every non-empty name from the admin,
including names over 100 characters and whitespace-only names; the length
bound and the trimmed-emptiness check live only in the HTTP validator. -/
theorem core_accepts_all_nonempty_names :
    (∀ (s : VotingSystem) (name : String), name ≠ "" →
      s.addCandidate s.admin name =
        .ok ({ s with candidates := s.candidates ++ [{ name := name, voteCount := 0 }] },
             s.candidates.length)) ∧
    validateAddCandidate " " = some "Candidate name cannot be empty" ∧
    validateAddCandidate longName101 =
      some "Candidate name too long (max 100 characters)" ∧
    (" " : String) ≠ "" ∧ longName101 ≠ "" ∧ 100 < longName101.length := by
  refine ⟨fun s name h => ?_, rfl, by decide, by decide, by decide, by decide⟩
  have hlen := length_ne_zero_of_ne_empty name h
  simp [VotingSystem.addCandidate, hlen]

lemma candAt_cons_zero (c : Candidate) (cs : List Candidate) :
    candAt (c :: cs) 0 = c := rfl

lemma candAt_cons_succ (c : Candidate) (cs : List Candidate) (j : Nat) :
    candAt (c :: cs) (j + 1) = candAt cs j := rfl

lemma le_maxCount (cs : List Candidate) (j : Nat) (hj : j < cs.length) :
    (candAt cs j).voteCount ≤ maxCount cs := by
  induction cs generalizing j with
  | nil => simp at hj
  | cons c cs ih =>
    cases j with
    | zero => simp [candAt_cons_zero, maxCount]
    | succ j =>
      have h := ih j (by simpa using hj)
      calc (candAt (c :: cs) (j + 1)).voteCount = (candAt cs j).voteCount := rfl
        _ ≤ maxCount cs := h
        _ ≤ maxCount (c :: cs) := by simp [maxCount]

/-- The scan either keeps its accumulator (when no count beats the running
maximum) or lands on the first index whose count equals the list maximum. -/
lemma winnerScan_spec (cs : List Candidate) (i m w : Nat) :
    (maxCount cs ≤ m ∧ winnerScan cs i (m, w) = (m, w)) ∨
    (m < maxCount cs ∧ ∃ j, j < cs.length ∧
      winnerScan cs i (m, w) = (maxCount cs, i + j) ∧
      (candAt cs j).voteCount = maxCount cs ∧
      ∀ k, k < j → (candAt cs k).voteCount < maxCount cs) := by
  induction cs generalizing i m w with
  | nil => exact Or.inl ⟨by simp [maxCount], rfl⟩
  | cons c cs ih =>
    by_cases hc : c.voteCount > m
    · have hscan : winnerScan (c :: cs) i (m, w) = winnerScan cs (i + 1) (c.voteCount, i) := by
        simp [winnerScan, hc]
      rcases ih (i + 1) c.voteCount i with ⟨hle, heq⟩ | ⟨hlt, j, hj, heq, hcnt, hall⟩
      · have hmax : maxCount (c :: cs) = c.voteCount := Nat.max_eq_left hle
        refine Or.inr ⟨by rw [hmax]; exact hc, 0, by simp, ?_, ?_,
          fun k hk => absurd hk (Nat.not_lt_zero k)⟩
        · rw [hscan, heq, hmax, Nat.add_zero]
        · rw [hmax, candAt_cons_zero]
      · have hmax : maxCount (c :: cs) = maxCount cs :=
          Nat.max_eq_right (Nat.le_of_lt hlt)
        refine Or.inr ⟨by rw [hmax]; exact Nat.lt_trans hc hlt, j + 1,
          by simpa using Nat.succ_lt_succ hj, ?_, ?_, ?_⟩
        · have harith : i + 1 + j = i + (j + 1) := by omega
          rw [hscan, heq, hmax, harith]
        · rw [hmax, candAt_cons_succ]; exact hcnt
        · intro k hk
          cases k with
          | zero =>
            rw [hmax, candAt_cons_zero]
            exact hlt
          | succ k =>
            rw [hmax, candAt_cons_succ]
            exact hall k (by omega)
    · have hc' : c.voteCount ≤ m := Nat.le_of_not_lt hc
      have hscan : winnerScan (c :: cs) i (m, w) = winnerScan cs (i + 1) (m, w) := by
        simp [winnerScan, hc]
      rcases ih (i + 1) m w with ⟨hle, heq⟩ | ⟨hlt, j, hj, heq, hcnt, hall⟩
      · refine Or.inl ⟨Nat.max_le.mpr ⟨hc', hle⟩, ?_⟩
        rw [hscan, heq]
      · have hmax : maxCount (c :: cs) = maxCount cs :=
          Nat.max_eq_right (Nat.le_of_lt (Nat.lt_of_le_of_lt hc' hlt))
        refine Or.inr ⟨by rw [hmax]; exact hlt, j + 1,
          by simpa using Nat.succ_lt_succ hj, ?_, ?_, ?_⟩
        · have harith : i + 1 + j = i + (j + 1) := by omega
          rw [hscan, heq, hmax, harith]
        · rw [hmax, candAt_cons_succ]; exact hcnt
        · intro k hk
          cases k with
          | zero =>
            rw [hmax, candAt_cons_zero]
            exact Nat.lt_of_le_of_lt hc' hlt
          | succ k =>
            rw [hmax, candAt_cons_succ]
            exact hall k (by omega)

lemma incVote_length (cs : List Candidate) (i : Nat) :
    (incVote cs i).length = cs.length := by
  induction cs generalizing i with
  | nil => rfl
  | cons c cs ih =>
    cases i with
    | zero => rfl
    | succ i => simp [incVote, ih]

lemma candAt_incVote_self (cs : List Candidate) (i : Nat) :
    (candAt (incVote cs i) i).name = (candAt cs i).name ∧
    (i < cs.length →
      (candAt (incVote cs i) i).voteCount = (candAt cs i).voteCount + 1) := by
  induction cs generalizing i with
  | nil =>
    refine ⟨rfl, fun hi => ?_⟩
    simp at hi
  | cons c cs ih =>
    cases i with
    | zero => exact ⟨rfl, fun _ => rfl⟩
    | succ i =>
      refine ⟨(ih i).1, fun hi => (ih i).2 (by simpa using hi)⟩

lemma candAt_incVote_other (cs : List Candidate) (i j : Nat) (h : j ≠ i) :
    candAt (incVote cs i) j = candAt cs j := by
  induction cs generalizing i j with
  | nil => rfl
  | cons c cs ih =>
    cases i with
    | zero =>
      cases j with
      | zero => exact absurd rfl h
      | succ j => rfl
    | succ i =>
      cases j with
      | zero => rfl
      | succ j => exact ih i j (fun hh => h (by omega))

lemma hasVoted_false_iff (s : VotingSystem) (v : Address) :
    s.hasVoted v = false ↔ ∀ p ∈ s.votes, p.1 ≠ v := by
  simp [VotingSystem.hasVoted]

/-- Inversion of a successful `vote` call: its preconditions held and the new
state is exactly the three storage writes. -/
lemma vote_ok_inv (s : VotingSystem) (v : Address) (i : Nat) (s' : VotingSystem)
    (h : s.vote v i = .ok s') :
    s.hasVoted v = false ∧ i < s.candidates.length ∧
    s' = { s with
      votes := s.votes ++ [(v, i)],
      candidates := incVote s.candidates i } := by
  unfold VotingSystem.vote at h
  by_cases h1 : s.hasVoted v
  · simp [h1] at h
  · by_cases h2 : i ≥ s.candidates.length
    · simp [h1, h2] at h
    · refine ⟨by simpa using h1, Nat.lt_of_not_le h2, ?_⟩
      simp [h1, h2] at h
      exact h.symm

/-- Inversion of a successful `addCandidate` call. -/
lemma addCandidate_ok_inv (s : VotingSystem) (sender : Address) (name : String)
    (s' : VotingSystem) (idx : Nat)
    (h : s.addCandidate sender name = .ok (s', idx)) :
    sender = s.admin ∧ name.length ≠ 0 ∧
    s' = { s with candidates := s.candidates ++ [{ name := name, voteCount := 0 }] } ∧
    idx = s.candidates.length := by
  unfold VotingSystem.addCandidate at h
  by_cases h1 : sender = s.admin
  · by_cases h2 : name.length = 0
    · simp [h1, h2] at h
    · refine ⟨h1, h2, ?_, ?_⟩
      · simp [h1, h2] at h
        exact h.1.symm
      · simp [h1, h2] at h
        exact h.2.symm
  · simp [h1] at h

/-- C7: a successful CastVote appends exactly one vote record, increments the
chosen candidate's count by exactly 1, and changes nothing else: the admin,
every other candidate, the chosen candidate's name, and every other voter's
record are untouched. -/
theorem vote_frame (s : VotingSystem) (v : Address) (i : Nat) (s' : VotingSystem)
    (h : s.vote v i = .ok s') :
    s'.admin = s.admin ∧
    i < s.candidates.length ∧
    s'.candidates.length = s.candidates.length ∧
    (candAt s'.candidates i).name = (candAt s.candidates i).name ∧
    (candAt s'.candidates i).voteCount = (candAt s.candidates i).voteCount + 1 ∧
    (∀ j, j ≠ i → candAt s'.candidates j = candAt s.candidates j) ∧
    s'.voterToCandidate v = some i ∧
    (∀ a, a ≠ v → s'.voterToCandidate a = s.voterToCandidate a) ∧
    s'.votes = s.votes ++ [(v, i)] := by
  obtain ⟨hnv, hi, hs'⟩ := vote_ok_inv s v i s' h
  subst hs'
  refine ⟨rfl, hi, incVote_length s.candidates i,
    (candAt_incVote_self s.candidates i).1,
    (candAt_incVote_self s.candidates i).2 hi,
    fun j hj => candAt_incVote_other s.candidates i j hj, ?_, ?_, rfl⟩
  · have hnone : s.votes.find? (fun p => p.1 == v) = none := by
      rw [List.find?_eq_none]
      intro p hp
      simpa using (hasVoted_false_iff s v).mp hnv p hp
    simp [VotingSystem.voterToCandidate, List.find?_append, hnone, List.find?]
  · intro a ha
    have hva : (v == a) = false := beq_eq_false_iff_ne.mpr (Ne.symm ha)
    have hone : List.find? (fun p => p.1 == a) [(v, i)] = none := by
      simp [List.find?, hva]
    simp [VotingSystem.voterToCandidate, List.find?_append, hone]

theorem vote_frame_witness :
    ((VotingSystem.mk 0 [{ name := "A", voteCount := 0 }] []).vote 1 0 =
      .ok (VotingSystem.mk 0 [{ name := "A", voteCount := 1 }] [(1, 0)])) ∧
    (VotingSystem.mk 0 [{ name := "A", voteCount := 1 }] [(1, 0)]).voterToCandidate 1 =
      some 0 :=
  ⟨rfl, (vote_frame (VotingSystem.mk 0 [{ name := "A", voteCount := 0 }] []) 1 0
    (VotingSystem.mk 0 [{ name := "A", voteCount := 1 }] [(1, 0)]) rfl).2.2.2.2.2.2.1⟩

lemma vote_ok_hasVoted (s : VotingSystem) (v : Address) (i : Nat) (s' : VotingSystem)
    (h : s.vote v i = .ok s') : s'.hasVoted v = true := by
  obtain ⟨hnv, hi, hs'⟩ := vote_ok_inv s v i s' h
  subst hs'
  simp [VotingSystem.hasVoted]

lemma hasVoted_mono_step {s s' : VotingSystem} (v : Address)
    (hst : Step s s') (hv : s.hasVoted v = true) : s'.hasVoted v = true := by
  cases hst with
  | add sender name idx h =>
    obtain ⟨_, _, hs', _⟩ := addCandidate_ok_inv _ _ _ _ _ h
    subst hs'
    exact hv
  | vote sender idx h =>
    obtain ⟨_, _, hs'⟩ := vote_ok_inv _ _ _ _ h
    subst hs'
    unfold VotingSystem.hasVoted at hv ⊢
    simp [List.any_append, hv]

lemma hasVoted_mono {s s' : VotingSystem} (v : Address)
    (hr : ReachableFrom s s') (hv : s.hasVoted v = true) : s'.hasVoted v = true := by
  induction hr with
  | refl => exact hv
  | tail _ hst ih => exact hasVoted_mono_step v hst ih

lemma nodup_voters_step {s s' : VotingSystem} (hst : Step s s')
    (hn : (s.votes.map Prod.fst).Nodup) : (s'.votes.map Prod.fst).Nodup := by
  cases hst with
  | add sender name idx h =>
    obtain ⟨_, _, hs', _⟩ := addCandidate_ok_inv _ _ _ _ _ h
    subst hs'
    exact hn
  | vote sender idx h =>
    obtain ⟨hnv, _, hs'⟩ := vote_ok_inv _ _ _ _ h
    subst hs'
    have hmem : sender ∉ s.votes.map Prod.fst := by
      intro hmem
      obtain ⟨p, hp, hp2⟩ := List.mem_map.mp hmem
      exact (hasVoted_false_iff s sender).mp hnv p hp hp2
    simp only [List.map_append, List.map_cons, List.map_nil]
    rw [List.nodup_append]
    refine ⟨hn, List.nodup_singleton sender, ?_⟩
    intro a ha hb
    simp at hb
    subst hb
    exact hmem ha

/-- C4: for every identity, at most one CastVote ever succeeds: after one
success, every later CastVote by that identity, with any index argument,
fails with `AlreadyVoted` (and so mutates nothing); consequently reachable
states carry at most one vote record per identity. -/
theorem vote_at_most_once :
    (∀ (s s₁ s₂ : VotingSystem) (v : Address) (i j : Nat),
      s.vote v i = .ok s₁ → ReachableFrom s₁ s₂ →
      s₂.vote v j = .error .AlreadyVoted) ∧
    (∀ s : VotingSystem, Reachable s → (s.votes.map Prod.fst).Nodup) := by
  constructor
  · intro s s₁ s₂ v i j h1 h2
    have hv1 := vote_ok_hasVoted s v i s₁ h1
    have hv2 := hasVoted_mono v h2 hv1
    simp [VotingSystem.vote, hv2]
  · rintro s ⟨a, hr⟩
    induction hr with
    | refl => simp [VotingSystem.init]
    | tail _ hst ih => exact nodup_voters_step hst ih

theorem vote_at_most_once_witness :
    (VotingSystem.mk 0 [{ name := "A", voteCount := 1 }] [(1, 0)]).vote 1 5 =
      .error .AlreadyVoted ∧
    ((VotingSystem.init 0).votes.map Prod.fst).Nodup :=
  ⟨vote_at_most_once.1 (VotingSystem.mk 0 [{ name := "A", voteCount := 0 }] [])
      (VotingSystem.mk 0 [{ name := "A", voteCount := 1 }] [(1, 0)])
      (VotingSystem.mk 0 [{ name := "A", voteCount := 1 }] [(1, 0)]) 1 0 5 rfl
      (ReachableFrom.refl _),
   vote_at_most_once.2 (VotingSystem.init 0) ⟨0, ReachableFrom.refl _⟩⟩

lemma candAt_append_left (cs ds : List Candidate) (j : Nat) (h : j < cs.length) :
    candAt (cs ++ ds) j = candAt cs j := by
  simp [candAt, List.getD_eq_getElem?_getD, List.getElem?_append_left h]

lemma candAt_append_self (cs : List Candidate) (c : Candidate) :
    candAt (cs ++ [c]) cs.length = c := by
  simp [candAt, List.getD_eq_getElem?_getD,
    List.getElem?_append_right (Nat.le_refl _)]

/-- The inductive invariant of reachable states: every recorded vote points at
an existing candidate, and each count equals the number of records for it. -/
def Inv (s : VotingSystem) : Prop :=
  (∀ p ∈ s.votes, p.2 < s.candidates.length) ∧
  (∀ i, i < s.candidates.length →
    (candAt s.candidates i).voteCount = s.votes.countP (fun p => p.2 == i))

lemma inv_init (a : Address) : Inv (VotingSystem.init a) := by
  constructor
  · intro p hp
    simp [VotingSystem.init] at hp
  · intro i hi
    simp [VotingSystem.init] at hi

lemma inv_step {s s' : VotingSystem} (hst : Step s s') (hinv : Inv s) : Inv s' := by
  obtain ⟨hrange, hcount⟩ := hinv
  cases hst with
  | add sender name idx h =>
    obtain ⟨_, _, hs', _⟩ := addCandidate_ok_inv _ _ _ _ _ h
    subst hs'
    constructor
    · intro p hp
      have := hrange p hp
      simp only [List.length_append, List.length_cons, List.length_nil]
      omega
    · intro i hi
      simp only [List.length_append, List.length_cons, List.length_nil] at hi
      by_cases hlt : i < s.candidates.length
      · rw [candAt_append_left _ _ _ hlt]
        exact hcount i hlt
      · have hieq : i = s.candidates.length := by omega
        subst hieq
        rw [candAt_append_self]
        have hz : ∀ p ∈ s.votes, ¬ ((fun p => p.2 == s.candidates.length) p = true) := by
          intro p hp hbeq
          have := hrange p hp
          simp at hbeq
          omega
        rw [List.countP_eq_zero.mpr hz]
  | vote sender idx h =>
    obtain ⟨hnv, hidx, hs'⟩ := vote_ok_inv _ _ _ _ h
    subst hs'
    constructor
    · intro p hp
      rw [incVote_length]
      rcases List.mem_append.mp hp with hp | hp
      · exact hrange p hp
      · simp at hp
        subst hp
        exact hidx
    · intro i hi
      rw [incVote_length] at hi
      rw [List.countP_append]
      by_cases hie : i = idx
      · subst hie
        rw [(candAt_incVote_self s.candidates i).2 hi, hcount i hi]
        simp
      · rw [candAt_incVote_other s.candidates idx i hie, hcount i hi]
        have hne : (idx == i) = false := beq_eq_false_iff_ne.mpr (Ne.symm hie)
        simp [hne]

lemma reachable_inv (s : VotingSystem) (h : Reachable s) : Inv s := by
  obtain ⟨a, hr⟩ := h
  induction hr with
  | refl => exact inv_init a
  | tail _ hst ih => exact inv_step hst ih

/-- C6: in every reachable state, each candidate's vote count equals the
number of vote records pointing at its index. -/
theorem voteCount_matches_records (s : VotingSystem) (h : Reachable s)
    (i : Nat) (hi : i < s.candidates.length) :
    (candAt s.candidates i).voteCount = s.votes.countP (fun p => p.2 == i) :=
  (reachable_inv s h).2 i hi

theorem voteCount_matches_records_witness :
    (candAt (VotingSystem.mk 0 [{ name := "A", voteCount := 1 }] [(1, 0)]).candidates
      0).voteCount =
      (VotingSystem.mk 0 [{ name := "A", voteCount := 1 }] [(1, 0)]).votes.countP
        (fun p => p.2 == 0) :=
  voteCount_matches_records (VotingSystem.mk 0 [{ name := "A", voteCount := 1 }] [(1, 0)])
    ⟨0, ReachableFrom.tail
      (ReachableFrom.tail (ReachableFrom.refl (VotingSystem.init 0))
        (@Step.add (VotingSystem.init 0) 0 "A"
          (VotingSystem.mk 0 [{ name := "A", voteCount := 0 }] []) 0 rfl))
      (@Step.vote (VotingSystem.mk 0 [{ name := "A", voteCount := 0 }] []) 1 0
        (VotingSystem.mk 0 [{ name := "A", voteCount := 1 }] [(1, 0)]) rfl)⟩
    0 (by decide)

lemma runOps_cons (s : VotingSystem) (op : Op) (ops : List Op) :
    runOps s (op :: ops) = runOps (applyOp s op) ops := rfl

lemma applyOp_length (s : VotingSystem) (op : Op) :
    (applyOp s op).candidates.length =
      s.candidates.length + (if isSuccessfulAdd s op then 1 else 0) := by
  cases op with
  | add sender name =>
    cases h : s.addCandidate sender name with
    | ok pr =>
      obtain ⟨s', idx⟩ := pr
      obtain ⟨_, _, hs', _⟩ := addCandidate_ok_inv _ _ _ _ _ h
      subst hs'
      simp [applyOp, isSuccessfulAdd, h]
    | error e => simp [applyOp, isSuccessfulAdd, h]
  | castVote sender idx =>
    cases h : s.vote sender idx with
    | ok s' =>
      obtain ⟨_, _, hs'⟩ := vote_ok_inv _ _ _ _ h
      subst hs'
      simp [applyOp, isSuccessfulAdd, h, incVote_length]
    | error e => simp [applyOp, isSuccessfulAdd, h]

lemma runOps_candidates_length (ops : List Op) :
    ∀ s : VotingSystem,
      (runOps s ops).candidates.length = s.candidates.length + succAdds s ops := by
  induction ops with
  | nil =>
    intro s
    simp [runOps, succAdds]
  | cons op ops ih =>
    intro s
    rw [runOps_cons, ih (applyOp s op), applyOp_length]
    simp only [succAdds]
    omega

/-- C5: after any sequence of calls on a fresh contract, a successful
AddCandidate appends the candidate with zero votes and assigns the index equal
to the number of prior successful AddCandidate calls, which is the current
sequence length: indices are 0-based, strictly monotonic, gap-free. -/
theorem addCandidate_index_is_prior_adds (a : Address) (ops : List Op)
    (sender : Address) (name : String) (s' : VotingSystem) (idx : Nat)
    (h : (runOps (VotingSystem.init a) ops).addCandidate sender name = .ok (s', idx)) :
    idx = succAdds (VotingSystem.init a) ops ∧
    idx = (runOps (VotingSystem.init a) ops).candidates.length ∧
    s'.candidates =
      (runOps (VotingSystem.init a) ops).candidates ++
        [{ name := name, voteCount := 0 }] := by
  obtain ⟨_, _, hs', hidx⟩ := addCandidate_ok_inv _ _ _ _ _ h
  subst hs'
  refine ⟨?_, hidx, rfl⟩
  rw [hidx, runOps_candidates_length]
  simp [VotingSystem.init]

theorem addCandidate_index_witness :
    1 = succAdds (VotingSystem.init 0) [Op.add 0 "A"] ∧
    1 = (runOps (VotingSystem.init 0) [Op.add 0 "A"]).candidates.length ∧
    (VotingSystem.mk 0 [{ name := "A", voteCount := 0 },
        { name := "B", voteCount := 0 }] []).candidates =
      (runOps (VotingSystem.init 0) [Op.add 0 "A"]).candidates ++
        [{ name := "B", voteCount := 0 }] :=
  addCandidate_index_is_prior_adds 0 [Op.add 0 "A"] 0 "B"
    (VotingSystem.mk 0 [{ name := "A", voteCount := 0 },
      { name := "B", voteCount := 0 }] []) 1 rfl

/-- C1: GetWinner fails with `NoCandidates` exactly on an empty registry;
otherwise it returns the name of the earliest-registered candidate whose vote
count is maximal: the winner index is in range, every candidate has at most
its count, all earlier candidates have strictly fewer votes, and an all-zero
registry yields index 0. -/
theorem getWinner_correct (s : VotingSystem) :
    (s.candidates = [] → s.getWinner = .error .NoCandidates) ∧
    (s.candidates ≠ [] →
      ∃ w, w < s.candidates.length ∧
        s.getWinner = .ok ((candAt s.candidates w).name) ∧
        (∀ j, j < s.candidates.length →
          (candAt s.candidates j).voteCount ≤ (candAt s.candidates w).voteCount) ∧
        (∀ j, j < w →
          (candAt s.candidates j).voteCount < (candAt s.candidates w).voteCount) ∧
        ((∀ j, j < s.candidates.length → (candAt s.candidates j).voteCount = 0) →
          w = 0)) := by
  constructor
  · intro h
    simp [VotingSystem.getWinner, h]
  · intro h
    have hlen : s.candidates.length ≠ 0 := by
      simpa [List.length_eq_zero] using h
    have hnot : ¬ ((s.candidates.length == 0) = true) := by simpa using hlen
    rcases winnerScan_spec s.candidates 0 0 0 with ⟨hle, heq⟩ | ⟨hlt, j, hj, heq, hcnt, hall⟩
    · refine ⟨0, Nat.pos_of_ne_zero hlen, ?_, ?_, fun j hj => absurd hj (Nat.not_lt_zero j),
        fun _ => rfl⟩
      · unfold VotingSystem.getWinner
        rw [if_neg hnot]
        show Except.ok ((s.candidates.getD (winnerScan s.candidates 0 (0, 0)).2
          { name := "", voteCount := 0 }).name) = _
        rw [heq]
        rfl
      · intro j hjl
        have h1 := le_maxCount s.candidates j hjl
        omega
    · refine ⟨j, hj, ?_, ?_, ?_, ?_⟩
      · unfold VotingSystem.getWinner
        rw [if_neg hnot]
        show Except.ok ((s.candidates.getD (winnerScan s.candidates 0 (0, 0)).2
          { name := "", voteCount := 0 }).name) = _
        rw [heq]
        show Except.ok ((s.candidates.getD (0 + j) { name := "", voteCount := 0 }).name) = _
        rw [Nat.zero_add]
        rfl
      · intro k hk
        have h1 := le_maxCount s.candidates k hk
        omega
      · intro k hk
        have h1 := hall k hk
        omega
      · intro hz
        have h1 := hz j hj
        omega

/-- A two-way tie with the votes cast: the earliest candidate must win. -/
def tieState : VotingSystem :=
  { admin := 0,
    candidates := [{ name := "A", voteCount := 1 }, { name := "B", voteCount := 1 }],
    votes := [(1, 0), (2, 1)] }

theorem getWinner_correct_witness :
    ((VotingSystem.init 0).getWinner = .error .NoCandidates) ∧
    (∃ w, w < tieState.candidates.length ∧
      tieState.getWinner = .ok ((candAt tieState.candidates w).name) ∧
      (∀ j, j < tieState.candidates.length →
        (candAt tieState.candidates j).voteCount ≤ (candAt tieState.candidates w).voteCount) ∧
      (∀ j, j < w →
        (candAt tieState.candidates j).voteCount < (candAt tieState.candidates w).voteCount) ∧
      ((∀ j, j < tieState.candidates.length → (candAt tieState.candidates j).voteCount = 0) →
        w = 0)) :=
  ⟨(getWinner_correct (VotingSystem.init 0)).1 rfl,
   (getWinner_correct tieState).2 (by decide)⟩

theorem core_accepts_all_nonempty_names_witness :
    (VotingSystem.init 0).addCandidate 0 " " =
      .ok ({ admin := 0, candidates := [{ name := " ", voteCount := 0 }], votes := [] }, 0) ∧
    (VotingSystem.init 0).addCandidate 0 longName101 =
      .ok ({ admin := 0, candidates := [{ name := longName101, voteCount := 0 }],
             votes := [] }, 0) :=
  ⟨core_accepts_all_nonempty_names.1 (VotingSystem.init 0) " " (by decide),
   core_accepts_all_nonempty_names.1 (VotingSystem.init 0) longName101 (by decide)⟩

end Voting
